import Mathlib

/-!
Shallow embedding of `src/functions.py` (FitRing): a small pandas-based
analytics library.  DataFrames are modelled as ordered lists of rows, a row
being an association list from column name to cell value.  Cell values are
strings, exact rationals (standing for the numeric values), or `na`
(pandas NaN / missing).  The pandas behaviours the source relies on are
modelled explicitly:

* `df.groupby(g)` sorts the distinct group keys ascending and drops rows
  whose key is NaN (pandas default `sort=True, dropna=True`);
* `Series.sum()` / `Series.mean()` skip NaN values (`skipna=True`), the sum
  of an all-NaN series being `0`;
* `df.sort_values(by, ascending=False)` reverses an ascending argsort
  (pandas `nargsort`); its default `kind='quicksort'` guarantees no tie
  order on larger inputs, so the embedding fixes one concrete correct sort
  (stable ascending, then reverse — numpy's behaviour on small arrays) and
  tie order is relied on only at small concrete inputs;
* `df.head(n)` takes the first `n` rows for `n ≥ 0` and all but the last
  `|n|` rows for `n < 0` (Python slice semantics);
* `pd.cut(x, bins, labels, right=False)` assigns `labels[i]` when
  `bins[i] ≤ x < bins[i+1]`, NaN otherwise.
-/

namespace FitRing

/-- A cell of a DataFrame: a string, a numeric value (modelled exactly as a
rational), or missing (pandas NaN). -/
inductive Val where
  | str : String → Val
  | num : ℚ → Val
  | na  : Val
deriving DecidableEq

/-- A row: association list from column name to value.  Column names are
unique within a row. -/
abbrev Row := List (String × Val)

/-- A DataFrame: ordered list of rows. -/
abbrev Table := List Row

/-- Value of column `c` in row `r`; missing columns read as `na`. -/
def getCell (r : Row) (c : String) : Val :=
  (r.lookup c).getD Val.na

/-- The ordering pandas uses on group keys when sorting them (numbers and
strings by their usual order; `na` never occurs among group keys since
`groupby` drops NaN keys, but the relation totalises it below everything). -/
def vle : Val → Val → Prop
  | Val.na, _ => True
  | Val.num _, Val.na => False
  | Val.num a, Val.num b => a ≤ b
  | Val.num _, Val.str _ => True
  | Val.str _, Val.na => False
  | Val.str _, Val.num _ => False
  | Val.str a, Val.str b => a ≤ b

instance : DecidableRel vle := fun a b =>
  match a, b with
  | Val.na, _ => inferInstanceAs (Decidable True)
  | Val.num _, Val.na => inferInstanceAs (Decidable False)
  | Val.num a, Val.num b => inferInstanceAs (Decidable (a ≤ b))
  | Val.num _, Val.str _ => inferInstanceAs (Decidable True)
  | Val.str _, Val.na => inferInstanceAs (Decidable False)
  | Val.str _, Val.num _ => inferInstanceAs (Decidable False)
  | Val.str a, Val.str b => inferInstanceAs (Decidable (a ≤ b))

instance : IsTotal Val vle :=
  ⟨fun a b => by
    cases a <;> cases b <;> simp [vle] <;> exact le_total _ _⟩

instance : IsTrans Val vle :=
  ⟨fun a b c hab hbc => by
    cases a <;> cases b <;> cases c <;> simp_all [vle] <;> exact le_trans hab hbc⟩

/-- The values of column `c` down a table, in row order
(`df[c]` as a positional series). -/
def cellsOf (t : Table) (c : String) : List Val :=
  t.map (fun r => getCell r c)

/-- The numeric entries of a series, skipping strings and NaN
(pandas numeric aggregation with `skipna=True`). -/
def numsOf (vs : List Val) : List ℚ :=
  vs.filterMap (fun v => match v with | Val.num q => some q | _ => none)

/-- `Series.sum()`: sum of the non-missing numeric entries (0 if none). -/
def seriesSum (vs : List Val) : ℚ :=
  (numsOf vs).sum

/-- `Series.mean()`: mean of the non-missing numeric entries, NaN (`none`)
if there are none. -/
def seriesMean (vs : List Val) : Option ℚ :=
  let qs := numsOf vs
  if qs.length = 0 then none else some (qs.sum / qs.length)

/-- The distinct non-NaN values of column `g`, sorted ascending: the group
keys produced by `df.groupby(g)` (default `sort=True, dropna=True`). -/
def groupKeys (t : Table) (g : String) : List Val :=
  List.insertionSort vle (((cellsOf t g).filter (fun v => v ≠ Val.na)).dedup)

/-- The rows of the group keyed by `k` when grouping by column `g`. -/
def groupRows (t : Table) (g : String) (k : Val) : Table :=
  t.filter (fun r => getCell r g = k)

/-- The partition `df.groupby(g)` induces on the rows: for every group key,
the rows carrying it. -/
def groupbyPartition (t : Table) (g : String) : List (Val × Table) :=
  (groupKeys t g).map (fun k => (k, groupRows t g k))

/-- Comparison of list elements through a rational sort key. -/
def byQ {α : Type} (key : α → ℚ) (a b : α) : Prop :=
  key a ≤ key b

instance {α : Type} (key : α → ℚ) : DecidableRel (byQ key) := fun a b =>
  inferInstanceAs (Decidable (key a ≤ key b))

instance {α : Type} (key : α → ℚ) : IsTotal α (byQ key) :=
  ⟨fun a b => le_total (key a) (key b)⟩

instance {α : Type} (key : α → ℚ) : IsTrans α (byQ key) :=
  ⟨fun _ _ _ hab hbc => le_trans hab hbc⟩

/-- `sort_values(by=key, ascending=False)` for an all-numeric key column:
an ascending argsort, reversed (pandas `nargsort`).  pandas' default
`kind='quicksort'` guarantees no tie order on larger inputs, so the
embedding fixes one concrete correct sort — a stable ascending sort, then
reverse, which is what numpy's insertion sort does on small arrays.  Only
properties that hold for every correct descending sort, or evaluations at
small concrete inputs where numpy's sort is the stable insertion sort, are
read off this choice of tie order. -/
def sortDescQ {α : Type} (key : α → ℚ) (xs : List α) : List α :=
  (List.insertionSort (byQ key) xs).reverse

/-- `sort_values(by=key, ascending=False)` when the key may be NaN
(`none`): NaN rows go last (`na_position=default`), in original order; the
rest as in `sortDescQ`. -/
def sortDescOpt {α : Type} (key : α → Option ℚ) (xs : List α) : List α :=
  sortDescQ (fun x => (key x).getD 0) (xs.filter (fun x => (key x).isSome))
    ++ xs.filter (fun x => (key x).isNone)

/-- `df.head(n)`: first `n` rows for `n ≥ 0`, all but the last `|n|` rows
for negative `n` (Python slice `df[:n]` semantics). -/
def headN {α : Type} (n : ℤ) (xs : List α) : List α :=
  if 0 ≤ n then xs.take n.toNat else xs.take (xs.length - (-n).toNat)

/-- `get_top_n_groups_by_sum(df, group_by_column, sum_column, n)`:
group, sum `sum_column` per group, sort descending by the sum, `head(n)`.
Result rows are `(group key, sum)`. -/
def get_top_n_groups_by_sum (t : Table) (g v : String) (n : ℤ) :
    List (Val × ℚ) :=
  let group_sums := (groupKeys t g).map
    (fun k => (k, seriesSum (cellsOf (groupRows t g k) v)))
  headN n (sortDescQ (fun p => p.2) group_sums)

/-- `get_top_n_groups_by_mean(df, group_by_column, mean_columns, n)`:
group, take the mean of each listed column per group, sort descending by
the mean of the first listed column, `head(n)`.  Result rows are
`(group key, means in column-list order)`. -/
def get_top_n_groups_by_mean (t : Table) (g : String) (cols : List String)
    (n : ℤ) : List (Val × List (Option ℚ)) :=
  let group_means := (groupKeys t g).map
    (fun k => (k, cols.map (fun c => seriesMean (cellsOf (groupRows t g k) c))))
  headN n (sortDescOpt (fun p => p.2.headD none) group_means)

/-- `get_top_n_groups_by_percentage(df, group_by_column, numerator_column, n)`:
group, per group compute the sum of the numerator column, the row count
(pandas `size`, which counts every row of the group), and
`percentage = numerator / denominator * 100`; sort descending by the
percentage, `head(n)`.  Result rows are
`(group key, total_numerator, total_denominator, percentage)`. -/
def get_top_n_groups_by_percentage (t : Table) (g numc : String) (n : ℤ) :
    List (Val × ℚ × ℕ × ℚ) :=
  let group_sums := (groupKeys t g).map
    (fun k =>
      let rows := groupRows t g k
      let s := seriesSum (cellsOf rows numc)
      let d := rows.length
      (k, s, d, s / (d : ℚ) * 100))
  headN n (sortDescQ (fun p => p.2.2.2) group_sums)

/-! ### Type coercion (`convert_columns_to_type`) -/

/-- `Series.astype('int64')` on a single cell: floats truncate toward zero,
strings parse as integers, anything else (NaN, non-integer string) raises. -/
def astypeInt : Val → Option Val
  | Val.num q => some (Val.num ((q.num.tdiv (q.den : ℤ) : ℤ) : ℚ))
  | Val.str s => (s.toInt?).map (fun i => Val.num (i : ℚ))
  | Val.na => none

/-- `Series.astype` over a whole column: converts every cell, or raises with
the first cell that cannot be converted (the column is then left untouched —
`astype` builds the new array before it is assigned). -/
def astypeSeries (coe : Val → Option Val) : List Val → Except Val (List Val)
  | [] => Except.ok []
  | v :: vs =>
    match coe v with
    | none => Except.error v
    | some w =>
      match astypeSeries coe vs with
      | Except.error b => Except.error b
      | Except.ok ws => Except.ok (w :: ws)

/-- `row[c] = v`: replace the cell of column `c`, or append the column if the
row does not have it. -/
def setCell (r : Row) (c : String) (v : Val) : Row :=
  if (r.lookup c).isSome then
    r.map (fun p => if p.1 = c then (c, v) else p)
  else r ++ [(c, v)]

/-- `df[c] = vs`: positional column assignment. -/
def setColumn (t : Table) (c : String) (vs : List Val) : Table :=
  t.zipWith (fun r v => setCell r c v) vs

/-- `convert_columns_to_type(df, columns, dtype)`: for each listed column in
order, `df[column] = df[column].astype(dtype)`.  The loop mutates `df` one
column at a time, so when a conversion raises, the columns already processed
stay converted; the error carries the DataFrame state at raise time and the
offending value. -/
def convert_columns_to_type (t : Table) (cols : List String)
    (coe : Val → Option Val) : Except (Table × Val) Table :=
  match cols with
  | [] => Except.ok t
  | c :: rest =>
    match astypeSeries coe (cellsOf t c) with
    | Except.error v => Except.error (t, v)
    | Except.ok vs => convert_columns_to_type (setColumn t c vs) rest coe

/-! ### Column-name normalization (`load_and_clean_csv`, line 22)

`df.columns.str.lower().str.strip().str.replace(" ", "_")`.  Strings are
modelled as lists of Unicode code points; lowering is the ASCII case map,
stripping removes leading/trailing whitespace, and the replacement is the
single-character map space → underscore. -/

/-- ASCII lowercasing of one code point (`str.lower`). -/
def lowerCp (c : ℕ) : ℕ :=
  if 65 ≤ c ∧ c ≤ 90 then c + 32 else c

/-- Whitespace code points removed by `str.strip`. -/
def isSpaceCp (c : ℕ) : Bool :=
  c = 32 || c = 9 || c = 10 || c = 11 || c = 12 || c = 13

/-- `str.strip()`: drop leading and trailing whitespace. -/
def stripCp (s : List ℕ) : List ℕ :=
  ((s.dropWhile isSpaceCp).reverse.dropWhile isSpaceCp).reverse

/-- `str.replace(" ", "_")`: space (32) becomes underscore (95). -/
def replaceSpaceCp (s : List ℕ) : List ℕ :=
  s.map (fun c => if c = 32 then 95 else c)

/-- The column-name normalization applied at load time:
lowercase, strip, replace spaces with underscores. -/
def cleanColumnName (s : List ℕ) : List ℕ :=
  replaceSpaceCp (stripCp (s.map lowerCp))

/-! ### Age binning (`pd.cut(..., right=False)`) -/

/-- `pd.cut(x, bins, labels, right=False)` on one value: `labels[i]` when
`bins[i] ≤ x < bins[i+1]`, unmatched (`none`) outside every bin. -/
def cutLabel : List ℚ → List String → ℚ → Option String
  | e1 :: e2 :: es, lab :: labs, x =>
    if e1 ≤ x ∧ x < e2 then some lab else cutLabel (e2 :: es) labs x
  | _, _, _ => none

/-! ### Data-quality report and rendering effects on the input DataFrame -/

/-- The column names of a table (all rows share them; taken from the first
row). -/
def columnsOf (t : Table) : List String :=
  (t.headD []).map Prod.fst

/-- Null count of one column (`df.isnull().sum()` for that column). -/
def nullCount (t : Table) (c : String) : ℕ :=
  (cellsOf t c).countP (fun v => v = Val.na)

/-- The `'nulls'` entry of `check_nulls_and_duplicates`: per-column null
counts, keeping only columns with at least one null. -/
def nulls_summary (t : Table) : List (String × ℕ) :=
  ((columnsOf t).map (fun c => (c, nullCount t c))).filter (fun p => 0 < p.2)

/-- The `'duplicates'` entry: `df.duplicated().sum()`, the number of rows
equal to some earlier row. -/
def duplicates_count (t : Table) : ℕ :=
  t.length - t.dedup.length

/-- `check_nulls_and_duplicates(df)`: the returned report paired with the
state of `df` after the call — the function body never assigns into `df`,
so that state is `df` itself. -/
def check_nulls_and_duplicates (t : Table) :
    (List (String × ℕ) × ℕ) × Table :=
  ((nulls_summary t, duplicates_count t), t)

/-- The age-group cell `pd.cut` produces for one row: the bin label of a
numeric age, NaN otherwise. -/
def ageGroupCell (bins : List ℚ) (labels : List String) (v : Val) : Val :=
  match v with
  | Val.num q =>
    match cutLabel bins labels q with
    | some lab => Val.str lab
    | none => Val.na
  | _ => Val.na

/-- The effect of `plot_age_distribution(df, country, age_bins, age_labels)`
on its input DataFrame: line 246 executes
`df['age_group'] = pd.cut(df['age'], bins=age_bins, labels=age_labels,
right=False)` on the caller's `df`; the rest of the body only reads `df` and
draws.  The rendered counts are not modelled. -/
def plot_age_distribution_effect (t : Table) (bins : List ℚ)
    (labels : List String) : Table :=
  setColumn t "age_group"
    (t.map (fun r => ageGroupCell bins labels (getCell r "age")))

/-- The effect of `plot_population_pyramid` on its input DataFrame: the body
works on `df[df["country"] == country].copy()` and never assigns into the
caller's `df`, so the input is unchanged. -/
def plot_population_pyramid_effect (t : Table) : Table :=
  t

/-! ### Concrete tables used in the concrete-input theorems -/

/-- A closed table whose only row has a missing group key: `groupby` drops
that row, so the groups do not cover the table. -/
def naKeyTable : Table := [[("g", Val.na), ("v", Val.num 1)]]

/-- A closed two-group table used to exercise `head` at a negative `n`. -/
def negNTable : Table :=
  [[("g", Val.str "A"), ("v", Val.num 1)],
   [("g", Val.str "B"), ("v", Val.num 1)]]

/-- A concrete table with two groups of equal sums, the group "A"
encountered before the group "B". -/
def tieTable : Table :=
  [[("g", Val.str "A"), ("v", Val.num 1)],
   [("g", Val.str "B"), ("v", Val.num 1)]]

/-- Non-increasing comparison on possibly-NaN aggregate values: NaN sorts
after every number (pandas `na_position` default). -/
def OptGe : Option ℚ → Option ℚ → Prop
  | some x, some y => y ≤ x
  | some _, none => True
  | none, none => True
  | none, some _ => False

/-- The example table of the specification:
`[{country: "A", obese: 1}, {country: "A", obese: 0}, {country: "B", obese: 1}]`. -/
def obesityTable : Table :=
  [[("country", Val.str "A"), ("obese", Val.num 1)],
   [("country", Val.str "A"), ("obese", Val.num 0)],
   [("country", Val.str "B"), ("obese", Val.num 1)]]

/-- A closed table for the type-coercion counterexample: column "a" holds a
convertible string, column "b" an unconvertible one. -/
def coerceTable : Table := [[("a", Val.str "1"), ("b", Val.str "x")]]

/-- A closed one-row table with an age but no age-group column. -/
def ageTable : Table := [[("age", Val.num 20), ("country", Val.str "X")]]

/-! ### General lemmas about the embedded operations -/

theorem filter_or_perm {α : Type} (p q : α → Bool) (l : List α)
    (hdisj : ∀ a, p a = true → q a = false) :
    List.Perm (l.filter p ++ l.filter q) (l.filter (fun a => p a || q a)) := by
  induction l with
  | nil => simp
  | cons a l ih =>
    by_cases hp : p a = true
    · have hq := hdisj a hp
      simpa [List.filter_cons, hp, hq] using ih.cons a
    · by_cases hq : q a = true
      · simp only [List.filter_cons, hp, hq, Bool.false_or, if_neg, cond_false,
          cond_true, Bool.false_eq_true, not_false_iff]
        exact List.perm_middle.trans (ih.cons a)
      · simpa [List.filter_cons, hp, hq] using ih

theorem flatten_filter_groups_perm {α β : Type} [DecidableEq β] (f : α → β)
    (l : List α) :
    ∀ ks : List β, ks.Nodup →
      List.Perm ((ks.map (fun k => l.filter (fun a => f a = k))).flatten)
        (l.filter (fun a => decide (f a ∈ ks))) := by
  intro ks
  induction ks with
  | nil => simp
  | cons k ks ih =>
    intro hnd
    have hk : k ∉ ks := (List.nodup_cons.1 hnd).1
    have ih' := ih (List.nodup_cons.1 hnd).2
    have e1 : ((k :: ks).map (fun k => l.filter (fun a => f a = k))).flatten
        = l.filter (fun a => f a = k) ++
            (ks.map (fun k => l.filter (fun a => f a = k))).flatten := by simp
    have s1 : List.Perm
        (l.filter (fun a => f a = k) ++
          (ks.map (fun k => l.filter (fun a => f a = k))).flatten)
        (l.filter (fun a => f a = k) ++ l.filter (fun a => decide (f a ∈ ks))) :=
      ih'.append_left _
    have s2 : List.Perm
        (l.filter (fun a => f a = k) ++ l.filter (fun a => decide (f a ∈ ks)))
        (l.filter (fun a => decide (f a = k) || decide (f a ∈ ks))) := by
      refine filter_or_perm _ _ l (fun a ha => ?_)
      simp only [decide_eq_true_eq] at ha
      simpa [ha] using hk
    have e2 : l.filter (fun a => decide (f a = k) || decide (f a ∈ ks))
        = l.filter (fun a => decide (f a ∈ k :: ks)) := by
      simp [List.mem_cons]
    rw [e1]
    exact (s1.trans s2).trans (e2 ▸ List.Perm.refl _)


theorem mem_groupKeys {t : Table} {g : String} {k : Val} :
    k ∈ groupKeys t g ↔ k ∈ cellsOf t g ∧ k ≠ Val.na := by
  unfold groupKeys
  rw [List.mem_insertionSort, List.mem_dedup, List.mem_filter]
  simp

theorem nodup_groupKeys (t : Table) (g : String) : (groupKeys t g).Nodup :=
  ((List.perm_insertionSort vle _).nodup_iff).2 (List.nodup_dedup _)

theorem sorted_groupKeys (t : Table) (g : String) :
    (groupKeys t g).Pairwise vle :=
  List.sorted_insertionSort vle _

/-- C1 — counterexample.  The claim says the groups formed by every aggregate
variant cover all rows of the table.  On a table whose single row has a
missing (NaN) value in the grouping column, `groupby` (pandas default
`dropna=True`) produces no group at all, so the union of the groups is empty
and the row is lost. -/
theorem c1_na_key_counterexample :
    ((groupbyPartition naKeyTable "g").map Prod.snd).flatten = [] ∧
    ((groupbyPartition naKeyTable "g").map Prod.snd).flatten ≠ naKeyTable := by
  constructor
  · with_unfolding_all rfl
  · with_unfolding_all decide

/-- C1 — amended claim: for every table and grouping column, the groups are
keyed by distinct values, every row of a group carries that group's key
(disjointness), and together the groups' rows are exactly the rows of the
table whose grouping value is not missing — rows with a NaN group key are
dropped, all other rows appear exactly once. -/
theorem c1_partition_amended (t : Table) (g : String) :
    (groupKeys t g).Nodup ∧
    (∀ k ∈ groupKeys t g, ∀ r ∈ groupRows t g k, getCell r g = k) ∧
    List.Perm (((groupbyPartition t g).map Prod.snd).flatten)
      (t.filter (fun r => decide (getCell r g ≠ Val.na))) := by
  refine ⟨nodup_groupKeys t g, ?_, ?_⟩
  · intro k _ r hr
    unfold groupRows at hr
    exact of_decide_eq_true (List.mem_filter.1 hr).2
  · have e : ((groupbyPartition t g).map Prod.snd) =
        (groupKeys t g).map (fun k => t.filter (fun r => getCell r g = k)) := by
      simp [groupbyPartition, List.map_map, groupRows]
    rw [e]
    have h := flatten_filter_groups_perm (fun r => getCell r g) t
      (groupKeys t g) (nodup_groupKeys t g)
    refine h.trans ?_
    have : t.filter (fun r => decide (getCell r g ∈ groupKeys t g)) =
        t.filter (fun r => decide (getCell r g ≠ Val.na)) := by
      refine List.filter_congr (fun r hr => ?_)
      have hmem : getCell r g ∈ cellsOf t g := List.mem_map.2 ⟨r, hr, rfl⟩
      by_cases hna : getCell r g = Val.na
      · simp [hna, mem_groupKeys]
      · simp [hna, mem_groupKeys, hmem]
    rw [this]

theorem length_sortDescQ {α : Type} (key : α → ℚ) (xs : List α) :
    (sortDescQ key xs).length = xs.length := by
  unfold sortDescQ
  rw [List.length_reverse]
  exact (List.perm_insertionSort _ _).length_eq

theorem length_sortDescOpt {α : Type} (key : α → Option ℚ) (xs : List α) :
    (sortDescOpt key xs).length = xs.length := by
  unfold sortDescOpt
  rw [List.length_append, length_sortDescQ]
  have e : xs.filter (fun x => (key x).isNone) =
      xs.filter (fun x => !(key x).isSome) := by
    refine List.filter_congr (fun x _ => ?_)
    cases key x <;> simp
  rw [e, ← List.length_append]
  exact (List.filter_append_perm _ xs).length_eq

theorem length_headN {α : Type} (n : ℤ) (xs : List α) :
    (headN n xs).length =
      if 0 ≤ n then min n.toNat xs.length else xs.length - (-n).toNat := by
  unfold headN
  split <;> simp [List.length_take]

/-- C3 — counterexample.  The claim says `n ≤ 0` returns an empty result
(`min (max n 0) group_count` rows).  `DataFrame.head` follows Python slice
semantics for negative `n`: on a two-group table, `n = -1` keeps all but the
last group — one row, not zero. -/
theorem c3_negative_n_counterexample :
    (get_top_n_groups_by_sum negNTable "g" "v" (-1)).length = 1 ∧
    get_top_n_groups_by_sum negNTable "g" "v" (-1) ≠ [] := by
  constructor
  · with_unfolding_all rfl
  · with_unfolding_all decide

/-- C3 — amended claim: each top-N aggregate returns
`min n group_count` rows when `n ≥ 0` (so `n = 0` gives an empty result and
`n ≥ group_count` gives all groups), but a negative `n` follows Python slice
semantics and returns `group_count - |n|` rows (all groups but the last
`|n|`), not an empty result. -/
theorem c3_result_length_amended (t : Table) (g v numc : String)
    (cols : List String) (n : ℤ) :
    ((get_top_n_groups_by_sum t g v n).length =
      if 0 ≤ n then min n.toNat (groupKeys t g).length
      else (groupKeys t g).length - (-n).toNat) ∧
    ((get_top_n_groups_by_mean t g cols n).length =
      if 0 ≤ n then min n.toNat (groupKeys t g).length
      else (groupKeys t g).length - (-n).toNat) ∧
    ((get_top_n_groups_by_percentage t g numc n).length =
      if 0 ≤ n then min n.toNat (groupKeys t g).length
      else (groupKeys t g).length - (-n).toNat) ∧
    (n = 0 → get_top_n_groups_by_sum t g v n = [] ∧
      get_top_n_groups_by_mean t g cols n = [] ∧
      get_top_n_groups_by_percentage t g numc n = []) ∧
    (((groupKeys t g).length : ℤ) ≤ n →
      List.Perm ((get_top_n_groups_by_sum t g v n).map Prod.fst)
        (groupKeys t g)) := by
  refine ⟨?_, ?_, ?_, ?_, ?_⟩
  · unfold get_top_n_groups_by_sum
    rw [length_headN, length_sortDescQ, List.length_map]
  · unfold get_top_n_groups_by_mean
    rw [length_headN, length_sortDescOpt, List.length_map]
  · unfold get_top_n_groups_by_percentage
    rw [length_headN, length_sortDescQ, List.length_map]
  · intro hn
    subst hn
    have hz : ∀ {α : Type} (xs : List α), headN 0 xs = [] := by
      intro α xs
      simp [headN]
    exact ⟨hz _, hz _, hz _⟩
  · intro hn
    unfold get_top_n_groups_by_sum headN
    have h0 : 0 ≤ n := le_trans (Int.ofNat_nonneg _) hn
    rw [if_pos h0]
    have hlen : (sortDescQ (fun p : Val × ℚ => p.2) ((groupKeys t g).map
        (fun k => (k, seriesSum (cellsOf (groupRows t g k) v))))).length ≤
        n.toNat := by
      rw [length_sortDescQ, List.length_map]
      omega
    rw [List.take_of_length_le hlen]
    unfold sortDescQ
    have p1 := (List.reverse_perm (List.insertionSort
      (byQ (fun p : Val × ℚ => p.2)) ((groupKeys t g).map
        (fun k => (k, seriesSum (cellsOf (groupRows t g k) v)))))).map Prod.fst
    have p2 := (List.perm_insertionSort (byQ (fun p : Val × ℚ => p.2))
      ((groupKeys t g).map
        (fun k => (k, seriesSum (cellsOf (groupRows t g k) v))))).map Prod.fst
    refine (p1.trans p2).trans ?_
    have e3 : ∀ ks : List Val,
        (ks.map (fun k : Val =>
          (k, seriesSum (cellsOf (groupRows t g k) v)))).map Prod.fst = ks := by
      intro ks
      induction ks with
      | nil => rfl
      | cons a ks ih => simp [ih]
    rw [e3]

/-- Witness for `c1_partition_amended`: its disjointness part applied to a
concrete one-row table, key and row. -/
theorem c1_partition_amended_witness :
    getCell [("g", Val.str "A"), ("v", Val.num 1)] "g" = Val.str "A" :=
  (c1_partition_amended [[("g", Val.str "A"), ("v", Val.num 1)]] "g").2.1
    (Val.str "A") (by with_unfolding_all decide)
    [("g", Val.str "A"), ("v", Val.num 1)] (by with_unfolding_all decide)

/-- Witness for `c3_result_length_amended`: its `n = 0` and
`n ≥ group_count` parts applied to a concrete two-group table. -/
theorem c3_result_length_amended_witness :
    get_top_n_groups_by_sum negNTable "g" "v" 0 = [] ∧
    List.Perm ((get_top_n_groups_by_sum negNTable "g" "v" 3).map Prod.fst)
      (groupKeys negNTable "g") := by
  constructor
  · exact ((c3_result_length_amended negNTable "g" "v" "v" [] 0).2.2.2.1 rfl).1
  · exact (c3_result_length_amended negNTable "g" "v" "v" [] 3).2.2.2.2
      (by with_unfolding_all decide)

/-- C4 — counterexample.  In `tieTable` the groups "A" and "B" are
encountered in that order and tie with sum 1, yet the result lists "B"
first: `groupby` reorders the groups ascending by key, and the descending
sort reverses the ascending argsort (numpy's sort is the stable insertion
sort at this two-element size), so the observed order is "B" then "A" —
not encounter order. -/
theorem c4_tie_counterexample :
    get_top_n_groups_by_sum tieTable "g" "v" 5 =
      [(Val.str "B", 1), (Val.str "A", 1)] ∧
    cellsOf tieTable "g" = [Val.str "A", Val.str "B"] ∧
    (get_top_n_groups_by_sum tieTable "g" "v" 5).map Prod.fst ≠
      [Val.str "A", Val.str "B"] := by
  refine ⟨?_, ?_, ?_⟩
  · with_unfolding_all rfl
  · with_unfolding_all rfl
  · with_unfolding_all decide

theorem sortDescQ_pairwise_ge {α : Type} (key : α → ℚ) (xs : List α) :
    (sortDescQ key xs).Pairwise (fun a b => key b ≤ key a) := by
  unfold sortDescQ
  rw [List.pairwise_reverse]
  exact List.sorted_insertionSort (byQ key) xs

theorem mem_sortDescQ {α : Type} {key : α → ℚ} {xs : List α} {a : α} :
    a ∈ sortDescQ key xs ↔ a ∈ xs := by
  unfold sortDescQ
  rw [List.mem_reverse, List.mem_insertionSort]

theorem perm_sortDescQ {α : Type} (key : α → ℚ) (xs : List α) :
    List.Perm (sortDescQ key xs) xs := by
  unfold sortDescQ
  exact (List.reverse_perm _).trans (List.perm_insertionSort _ _)

theorem headN_append_drop_perm {α : Type} (n : ℤ) (xs ys : List α)
    (h : List.Perm xs ys) :
    ∃ dropped, List.Perm (headN n xs ++ dropped) ys := by
  unfold headN
  split
  · exact ⟨xs.drop n.toNat, by rw [List.take_append_drop]; exact h⟩
  · exact ⟨xs.drop (xs.length - (-n).toNat),
      by rw [List.take_append_drop]; exact h⟩

/-- C4 — amended claim: sum-aggregate returns the per-group sums sorted
non-increasing and truncated by `head(n)` — appending the dropped groups
back gives a permutation of the per-group sums — but ties among equal sums
are not broken by original group encounter order: the program fixes no tie
order in general (`sort_values` defaults to an unstable quicksort), and on
the concrete two-group tie the observed order is "B" before "A", the
reverse of encounter order. -/
theorem c4_tie_order_amended (t : Table) (g v : String) (n : ℤ) :
    (get_top_n_groups_by_sum t g v n).Pairwise (fun a b => b.2 ≤ a.2) ∧
    (∃ dropped,
      List.Perm (get_top_n_groups_by_sum t g v n ++ dropped)
        ((groupKeys t g).map
          (fun k => (k, seriesSum (cellsOf (groupRows t g k) v))))) ∧
    get_top_n_groups_by_sum tieTable "g" "v" 5 =
      [(Val.str "B", 1), (Val.str "A", 1)] := by
  refine ⟨?_, ?_, ?_⟩
  · unfold get_top_n_groups_by_sum
    have h := sortDescQ_pairwise_ge (fun p : Val × ℚ => p.2)
      ((groupKeys t g).map
        (fun k => (k, seriesSum (cellsOf (groupRows t g k) v))))
    unfold headN
    split
    · exact h.sublist (List.take_sublist _ _)
    · exact h.sublist (List.take_sublist _ _)
  · exact headN_append_drop_perm n _ _
      (perm_sortDescQ (fun p : Val × ℚ => p.2)
        ((groupKeys t g).map
          (fun k => (k, seriesSum (cellsOf (groupRows t g k) v)))))
  · with_unfolding_all rfl

/-- The output of `sortDescOpt` is non-increasing on the (possibly NaN) sort
key, with NaN rows last. -/
theorem sortDescOpt_pairwise_ge {α : Type} (key : α → Option ℚ)
    (xs : List α) :
    (sortDescOpt key xs).Pairwise (fun a b => OptGe (key a) (key b)) := by
  unfold sortDescOpt
  rw [List.pairwise_append]
  refine ⟨?_, ?_, ?_⟩
  · have h := sortDescQ_pairwise_ge (fun x => (key x).getD 0)
      (xs.filter (fun x => (key x).isSome))
    have hmem : ∀ a ∈ sortDescQ (fun x => (key x).getD 0)
        (xs.filter (fun x => (key x).isSome)), (key a).isSome := by
      intro a ha
      exact (List.mem_filter.1 (mem_sortDescQ.1 ha)).2
    refine (List.Pairwise.and_mem.1 h).imp ?_
    intro a b hab
    rcases hab with ⟨hma, hmb, hr⟩
    rcases Option.isSome_iff_exists.1 (hmem a hma) with ⟨qa, hqa⟩
    rcases Option.isSome_iff_exists.1 (hmem b hmb) with ⟨qb, hqb⟩
    rw [hqa, hqb]
    show qb ≤ qa
    rw [hqa, hqb] at hr
    simpa using hr
  · refine List.pairwise_of_forall_mem_list ?_
    intro a ha b hb
    have hna : (key a).isNone := (List.mem_filter.1 ha).2
    have hnb : (key b).isNone := (List.mem_filter.1 hb).2
    rw [Option.isNone_iff_eq_none] at hna hnb
    rw [hna, hnb]
    trivial
  · intro a ha b hb
    have hsa : (key a).isSome :=
      (List.mem_filter.1 (mem_sortDescQ.1 ha)).2
    have hnb : (key b).isNone := (List.mem_filter.1 hb).2
    rw [Option.isNone_iff_eq_none] at hnb
    rcases Option.isSome_iff_exists.1 hsa with ⟨qa, hqa⟩
    rw [hqa, hnb]
    trivial

/-- C7 — confirmed.  The rows of `get_top_n_groups_by_sum` are sorted
non-increasing by the group sum, and the rows of `get_top_n_groups_by_mean`
are sorted non-increasing by the mean of the first listed column (a group
whose mean is NaN sorts after every numeric mean). -/
theorem c7_results_sorted_nonincreasing (t : Table) (g v : String)
    (cols : List String) (n : ℤ) :
    (get_top_n_groups_by_sum t g v n).Pairwise (fun a b => b.2 ≤ a.2) ∧
    (get_top_n_groups_by_mean t g cols n).Pairwise
      (fun a b => OptGe (a.2.headD none) (b.2.headD none)) := by
  constructor
  · unfold get_top_n_groups_by_sum
    have h := sortDescQ_pairwise_ge (fun p : Val × ℚ => p.2)
      ((groupKeys t g).map
        (fun k => (k, seriesSum (cellsOf (groupRows t g k) v))))
    unfold headN
    split
    · exact h.sublist (List.take_sublist _ _)
    · exact h.sublist (List.take_sublist _ _)
  · unfold get_top_n_groups_by_mean
    have h := sortDescOpt_pairwise_ge
      (fun p : Val × List (Option ℚ) => p.2.headD none)
      ((groupKeys t g).map
        (fun k => (k, cols.map (fun c => seriesMean (cellsOf (groupRows t g k) c)))))
    unfold headN
    split
    · exact h.sublist (List.take_sublist _ _)
    · exact h.sublist (List.take_sublist _ _)

/-- C6 — confirmed.  Appending to the table a row of group `k` whose
aggregated cell is missing (NaN) leaves that group's sum and mean unchanged
(the NaN is excluded from both), while the group's row count — the
denominator `get_top_n_groups_by_percentage` uses — grows by one: the NaN
row is still counted there. -/
theorem c6_missing_value_semantics (t : Table) (g v : String) (k : Val)
    (r : Row) (hk : getCell r g = k) (hv : getCell r v = Val.na) :
    seriesSum (cellsOf (groupRows (t ++ [r]) g k) v) =
      seriesSum (cellsOf (groupRows t g k) v) ∧
    seriesMean (cellsOf (groupRows (t ++ [r]) g k) v) =
      seriesMean (cellsOf (groupRows t g k) v) ∧
    (groupRows (t ++ [r]) g k).length = (groupRows t g k).length + 1 := by
  have h1 : groupRows (t ++ [r]) g k = groupRows t g k ++ [r] := by
    unfold groupRows
    rw [List.filter_append]
    simp [hk]
  have h2 : cellsOf (groupRows t g k ++ [r]) v =
      cellsOf (groupRows t g k) v ++ [Val.na] := by
    unfold cellsOf
    rw [List.map_append]
    simp [hv]
  have h3 : numsOf (cellsOf (groupRows t g k) v ++ [Val.na]) =
      numsOf (cellsOf (groupRows t g k) v) := by
    unfold numsOf
    rw [List.filterMap_append]
    simp
  refine ⟨?_, ?_, ?_⟩
  · rw [h1, h2]
    unfold seriesSum
    rw [h3]
  · rw [h1, h2]
    unfold seriesMean
    rw [h3]
  · rw [h1, List.length_append]
    rfl

/-- Witness for `c6_missing_value_semantics` at a concrete table and row. -/
theorem c6_missing_value_semantics_witness :
    seriesSum (cellsOf (groupRows
      ([[("g", Val.str "A"), ("v", Val.num 2)]] ++
        [[("g", Val.str "A"), ("v", Val.na)]]) "g" (Val.str "A")) "v") =
      seriesSum (cellsOf (groupRows
        [[("g", Val.str "A"), ("v", Val.num 2)]] "g" (Val.str "A")) "v") ∧
    seriesMean (cellsOf (groupRows
      ([[("g", Val.str "A"), ("v", Val.num 2)]] ++
        [[("g", Val.str "A"), ("v", Val.na)]]) "g" (Val.str "A")) "v") =
      seriesMean (cellsOf (groupRows
        [[("g", Val.str "A"), ("v", Val.num 2)]] "g" (Val.str "A")) "v") ∧
    (groupRows ([[("g", Val.str "A"), ("v", Val.num 2)]] ++
      [[("g", Val.str "A"), ("v", Val.na)]]) "g" (Val.str "A")).length =
      (groupRows [[("g", Val.str "A"), ("v", Val.num 2)]] "g"
        (Val.str "A")).length + 1 :=
  c6_missing_value_semantics [[("g", Val.str "A"), ("v", Val.num 2)]]
    "g" "v" (Val.str "A") [("g", Val.str "A"), ("v", Val.na)]
    (by with_unfolding_all rfl) (by with_unfolding_all rfl)

theorem mem_headN {α : Type} {n : ℤ} {xs : List α} {a : α}
    (h : a ∈ headN n xs) : a ∈ xs := by
  unfold headN at h
  rcases Decidable.em (0 ≤ n) with h0 | h0
  · rw [if_pos h0] at h
    exact (List.take_sublist _ _).mem h
  · rw [if_neg h0] at h
    exact (List.take_sublist _ _).mem h

theorem mem_percentage_result {t : Table} {g numc : String} {n : ℤ}
    {p : Val × ℚ × ℕ × ℚ}
    (hp : p ∈ get_top_n_groups_by_percentage t g numc n) :
    p.1 ∈ groupKeys t g ∧
    p = (p.1, seriesSum (cellsOf (groupRows t g p.1) numc),
      (groupRows t g p.1).length,
      seriesSum (cellsOf (groupRows t g p.1) numc) /
        ((groupRows t g p.1).length : ℚ) * 100) := by
  unfold get_top_n_groups_by_percentage at hp
  have hp2 := mem_sortDescQ.1 (mem_headN hp)
  rcases List.mem_map.1 hp2 with ⟨k, hk, hpk⟩
  rw [← hpk]
  exact ⟨hk, rfl⟩

/-- C5 — confirmed.  Every row of `get_top_n_groups_by_percentage` carries
exactly the group's numerator sum, its row count, and the percentage
`100 * sum / row_count`; when the numerator column holds only the values 0
and 1 every percentage lies in `[0, 100]`; and on the specification's
example table with `n = 5` the result is "B" with 100 before "A" with 50. -/
theorem c5_percentage_formula (t : Table) (g numc : String) (n : ℤ) :
    (∀ p ∈ get_top_n_groups_by_percentage t g numc n,
      p.2.1 = seriesSum (cellsOf (groupRows t g p.1) numc) ∧
      p.2.2.1 = (groupRows t g p.1).length ∧
      p.2.2.2 = 100 * seriesSum (cellsOf (groupRows t g p.1) numc) /
        ((groupRows t g p.1).length : ℚ)) ∧
    ((∀ r ∈ t, getCell r numc = Val.num 0 ∨ getCell r numc = Val.num 1) →
      ∀ p ∈ get_top_n_groups_by_percentage t g numc n,
        0 ≤ p.2.2.2 ∧ p.2.2.2 ≤ 100) ∧
    get_top_n_groups_by_percentage obesityTable "country" "obese" 5 =
      [(Val.str "B", 1, 1, 100), (Val.str "A", 1, 2, 50)] := by
  refine ⟨?_, ?_, ?_⟩
  · intro p hp
    obtain ⟨hk, hpe⟩ := mem_percentage_result hp
    refine ⟨?_, ?_, ?_⟩
    · exact congrArg (fun q => q.2.1) hpe
    · exact congrArg (fun q => q.2.2.1) hpe
    · have h := congrArg (fun q => q.2.2.2) hpe
      simp only at h
      rw [h]
      ring
  · intro hbin p hp
    obtain ⟨hk, hpe⟩ := mem_percentage_result hp
    set s := seriesSum (cellsOf (groupRows t g p.1) numc) with hs
    set d := (groupRows t g p.1).length with hd
    have hpct : p.2.2.2 = s / (d : ℚ) * 100 :=
      congrArg (fun q => q.2.2.2) hpe
    have hdpos : 0 < d := by
      rcases mem_groupKeys.1 hk with ⟨hcell, hna⟩
      rcases List.mem_map.1 hcell with ⟨r, hr, hrg⟩
      have : r ∈ groupRows t g p.1 := by
        unfold groupRows
        exact List.mem_filter.2 ⟨hr, by simp [hrg]⟩
      rw [hd]
      exact List.length_pos.2 (fun he => by simp [he] at this)
    have hq01 : ∀ q ∈ numsOf (cellsOf (groupRows t g p.1) numc),
        0 ≤ q ∧ q ≤ 1 := by
      intro q hq
      unfold numsOf at hq
      rcases List.mem_filterMap.1 hq with ⟨w, hw, hwq⟩
      rcases List.mem_map.1 hw with ⟨r, hr, hrw⟩
      have hrt : r ∈ t := List.mem_of_mem_filter hr
      rcases hbin r hrt with h0 | h0 <;> rw [← hrw, h0] at hwq <;>
        simp only [Option.some.injEq] at hwq <;> rw [← hwq] <;> norm_num
    have hs0 : 0 ≤ s := by
      rw [hs]
      unfold seriesSum
      exact List.sum_nonneg (fun q hq => (hq01 q hq).1)
    have hsd : s ≤ (d : ℚ) := by
      have h1 : s ≤ (numsOf (cellsOf (groupRows t g p.1) numc)).length • (1:ℚ) :=
        List.sum_le_card_nsmul _ _ (fun q hq => (hq01 q hq).2)
      have h2 : (numsOf (cellsOf (groupRows t g p.1) numc)).length ≤ d := by
        rw [hd]
        calc (numsOf (cellsOf (groupRows t g p.1) numc)).length
            ≤ (cellsOf (groupRows t g p.1) numc).length :=
              List.length_filterMap_le _ _
          _ = (groupRows t g p.1).length := List.length_map _ _
      refine le_trans h1 ?_
      rw [nsmul_eq_mul, mul_one]
      exact_mod_cast h2
    have hdq : (0:ℚ) < (d : ℚ) := by exact_mod_cast hdpos
    constructor
    · rw [hpct]
      have : 0 ≤ s / (d:ℚ) := div_nonneg hs0 (le_of_lt hdq)
      nlinarith
    · rw [hpct]
      have h1 : s / (d:ℚ) ≤ 1 := (div_le_one hdq).2 hsd
      nlinarith
  · with_unfolding_all rfl

/-- Witness for `c5_percentage_formula`: its range part applied to the
example table and the concrete result row for "B". -/
theorem c5_percentage_formula_witness :
    0 ≤ ((Val.str "B", (1:ℚ), (1:ℕ), (100:ℚ)).2.2.2) ∧
    ((Val.str "B", (1:ℚ), (1:ℕ), (100:ℚ)).2.2.2) ≤ 100 :=
  (c5_percentage_formula obesityTable "country" "obese" 5).2.1
    (by with_unfolding_all decide)
    (Val.str "B", (1:ℚ), (1:ℕ), (100:ℚ))
    (by with_unfolding_all decide)

theorem astypeSeries_error_spec (coe : Val → Option Val) :
    ∀ vs : List Val, ∀ v : Val, astypeSeries coe vs = Except.error v →
      ∃ l1 l2, vs = l1 ++ v :: l2 ∧ (∀ w ∈ l1, (coe w).isSome) ∧
        coe v = none := by
  intro vs
  induction vs with
  | nil =>
    intro v h
    simp [astypeSeries] at h
  | cons w ws ih =>
    intro v h
    unfold astypeSeries at h
    cases hw : coe w with
    | none =>
      rw [hw] at h
      simp only [Except.error.injEq] at h
      refine ⟨[], ws, ?_, ?_, ?_⟩
      · rw [h]
        rfl
      · intro x hx
        simp at hx
      · rw [← h]
        exact hw
    | some u =>
      rw [hw] at h
      cases hws : astypeSeries coe ws with
      | error b =>
        rw [hws] at h
        simp only [Except.error.injEq] at h
        rcases ih v (by rw [hws, h]) with ⟨l1, l2, he, hall, hv⟩
        refine ⟨w :: l1, l2, ?_, ?_, hv⟩
        · rw [he]
          rfl
        · intro x hx
          rcases List.mem_cons.1 hx with hx | hx
          · rw [hx, hw]
            rfl
          · exact hall x hx
      | ok us =>
        rw [hws] at h
        simp at h

/-- C2 — counterexample.  On the table `[{a: "1", b: "x"}]`, converting
columns `[a, b]` to integers fails on `"x"`, but by then column `a` has
already been converted in place: the error state differs from the input
table, refuting the no-partial-application policy (and the raised error
carries only the offending value, not the column name). -/
theorem c2_partial_application_counterexample :
    convert_columns_to_type coerceTable ["a", "b"] astypeInt =
      Except.error ([[("a", Val.num 1), ("b", Val.str "x")]], Val.str "x") ∧
    [[("a", Val.num 1), ("b", Val.str "x")]] ≠ coerceTable := by
  constructor
  · with_unfolding_all rfl
  · with_unfolding_all decide

/-- C2 — amended claim: type coercion processes the listed columns left to
right and either converts every listed column, or raises on the first
column containing an unconvertible value; the error carries that first
offending value (every value before it in the column is convertible), and
the columns listed before the failing one remain converted — the already
mutated table state — rather than being rolled back. -/
theorem c2_coercion_amended (t : Table) (cols : List String)
    (coe : Val → Option Val) :
    (∃ t', convert_columns_to_type t cols coe = Except.ok t') ∨
    (∃ pre c post t' v l1 l2,
      cols = pre ++ c :: post ∧
      convert_columns_to_type t cols coe = Except.error (t', v) ∧
      convert_columns_to_type t pre coe = Except.ok t' ∧
      cellsOf t' c = l1 ++ v :: l2 ∧
      (∀ w ∈ l1, (coe w).isSome) ∧ coe v = none) := by
  induction cols generalizing t with
  | nil =>
    left
    exact ⟨t, rfl⟩
  | cons c rest ih =>
    cases hc : astypeSeries coe (cellsOf t c) with
    | error v =>
      right
      rcases astypeSeries_error_spec coe _ _ hc with ⟨l1, l2, he, hall, hv⟩
      refine ⟨[], c, rest, t, v, l1, l2, rfl, ?_, rfl, he, hall, hv⟩
      unfold convert_columns_to_type
      rw [hc]
    | ok vs =>
      rcases ih (setColumn t c vs) with ⟨t', ht'⟩ | hfail
      · left
        refine ⟨t', ?_⟩
        unfold convert_columns_to_type
        rw [hc]
        exact ht'
      · right
        rcases hfail with ⟨pre, c', post, t', v, l1, l2, hcols, herr, hpre, hcells, hall, hv⟩
        refine ⟨c :: pre, c', post, t', v, l1, l2, ?_, ?_, ?_, hcells, hall, hv⟩
        · rw [hcols]
          rfl
        · unfold convert_columns_to_type
          rw [hc]
          exact herr
        · unfold convert_columns_to_type
          rw [hc]
          exact hpre

theorem chain_lt_head_le {b : ℚ} {l : List ℚ}
    (h : (b :: l).Chain' (fun p q => p < q)) :
    ∀ (j : ℕ) (e : ℚ), (b :: l)[j]? = some e → b ≤ e := by
  intro j e hj
  have hp : (b :: l).Pairwise (fun p q => p < q) :=
    (List.chain'_iff_pairwise).1 h
  cases j with
  | zero =>
    rw [List.getElem?_cons_zero] at hj
    simp only [Option.some.injEq] at hj
    rw [hj]
  | succ j =>
    rw [List.getElem?_cons_succ] at hj
    exact le_of_lt (List.rel_of_pairwise_cons hp (List.getElem?_mem hj))

theorem cutLabel_spec :
    ∀ (bins : List ℚ) (labels : List String) (x : ℚ),
      bins.Chain' (fun p q => p < q) →
      ∀ lab, (cutLabel bins labels x = some lab ↔
        ∃ i e1 e2, bins[i]? = some e1 ∧ bins[i + 1]? = some e2 ∧
          labels[i]? = some lab ∧ e1 ≤ x ∧ x < e2) := by
  intro bins
  induction bins with
  | nil =>
    intro labels x _ lab
    constructor
    · intro h
      cases labels <;> simp [cutLabel] at h
    · rintro ⟨i, e1, e2, h1, _⟩
      simp at h1
  | cons e1 bins ih =>
    cases bins with
    | nil =>
      intro labels x _ lab
      constructor
      · intro h
        cases labels <;> simp [cutLabel] at h
      · rintro ⟨i, f1, f2, h1, h2, _⟩
        cases i <;> simp at h2
    | cons e2 bins2 =>
      intro labels x hs lab
      cases labels with
      | nil =>
        constructor
        · intro h
          simp [cutLabel] at h
        · rintro ⟨i, f1, f2, h1, h2, h3, _⟩
          simp at h3
      | cons lb labs =>
        rw [cutLabel]
        by_cases hx : e1 ≤ x ∧ x < e2
        · rw [if_pos hx]
          constructor
          · intro h
            simp only [Option.some.injEq] at h
            exact ⟨0, e1, e2, by simp, by simp, by simp [h], hx.1, hx.2⟩
          · rintro ⟨i, f1, f2, h1, h2, h3, h4, h5⟩
            cases i with
            | zero =>
              rw [List.getElem?_cons_zero] at h3
              simp only [Option.some.injEq] at h3
              rw [← h3]
            | succ j =>
              rw [List.getElem?_cons_succ] at h1
              have he2 : e2 ≤ f1 := chain_lt_head_le hs.tail j f1 h1
              exact absurd (lt_of_lt_of_le hx.2 (le_trans he2 h4))
                (lt_irrefl x)
        · rw [if_neg hx]
          rw [ih labs x hs.tail lab]
          constructor
          · rintro ⟨j, f1, f2, h1, h2, h3, h4, h5⟩
            exact ⟨j + 1, f1, f2, by rw [List.getElem?_cons_succ]; exact h1,
              by rw [List.getElem?_cons_succ]; exact h2,
              by rw [List.getElem?_cons_succ]; exact h3, h4, h5⟩
          · rintro ⟨i, f1, f2, h1, h2, h3, h4, h5⟩
            cases i with
            | zero =>
              rw [List.getElem?_cons_zero] at h1
              rw [List.getElem?_cons_succ, List.getElem?_cons_zero] at h2
              simp only [Option.some.injEq] at h1 h2
              rw [← h1] at h4
              rw [← h2] at h5
              exact absurd ⟨h4, h5⟩ hx
            | succ j =>
              rw [List.getElem?_cons_succ] at h1 h2 h3
              exact ⟨j, f1, f2, h1, h2, h3, h4, h5⟩

/-- C8 — confirmed.  With strictly increasing bin edges, `pd.cut` with
`right=False` assigns `labels[i]` exactly when the value lies in the
half-open interval `[bins[i], bins[i+1])` and leaves values outside the
overall range unmatched; in particular with bins `[0, 18, 65, 120]` and
labels `["minor", "adult", "senior"]`, 17 maps to "minor", 18 to "adult"
and 130 to no group. -/
theorem c8_age_binning (bins : List ℚ) (labels : List String) (x : ℚ)
    (hs : bins.Chain' (fun p q => p < q)) :
    (∀ lab, cutLabel bins labels x = some lab ↔
      ∃ i e1 e2, bins[i]? = some e1 ∧ bins[i + 1]? = some e2 ∧
        labels[i]? = some lab ∧ e1 ≤ x ∧ x < e2) ∧
    cutLabel [0, 18, 65, 120] ["minor", "adult", "senior"] 17 =
      some "minor" ∧
    cutLabel [0, 18, 65, 120] ["minor", "adult", "senior"] 18 =
      some "adult" ∧
    cutLabel [0, 18, 65, 120] ["minor", "adult", "senior"] 130 = none := by
  refine ⟨cutLabel_spec bins labels x hs, ?_, ?_, ?_⟩
  · with_unfolding_all rfl
  · with_unfolding_all rfl
  · with_unfolding_all rfl

/-- Witness for `c8_age_binning` at the concrete bins of the example. -/
theorem c8_age_binning_witness :
    cutLabel [0, 18, 65, 120] ["minor", "adult", "senior"] 17 =
      some "minor" :=
  (c8_age_binning [0, 18, 65, 120] ["minor", "adult", "senior"] 17
    (by norm_num [List.chain'_cons, List.chain'_singleton])).2.1

theorem lowerCp_idem (c : ℕ) : lowerCp (lowerCp c) = lowerCp c := by
  unfold lowerCp
  split_ifs <;> omega

theorem map_fixed_eq {α : Type} (f : α → α) :
    ∀ l : List α, (∀ e ∈ l, f e = e) → l.map f = l := by
  intro l
  induction l with
  | nil =>
    intro _
    rfl
  | cons a l ih =>
    intro h
    rw [List.map_cons, h a (List.mem_cons_self a l),
      ih (fun e he => h e (List.mem_cons_of_mem a he))]

theorem mem_stripCp {s : List ℕ} {c : ℕ} (h : c ∈ stripCp s) : c ∈ s := by
  unfold stripCp at h
  have h1 := List.mem_reverse.1 h
  have h2 := (List.dropWhile_sublist _).mem h1
  have h3 := List.mem_reverse.1 h2
  exact (List.dropWhile_sublist _).mem h3

theorem head?_dropWhile_false {α : Type} (p : α → Bool) (l : List α) :
    ∀ a, (l.dropWhile p).head? = some a → p a = false := by
  intro a ha
  have h := List.head?_dropWhile_not p l
  rw [ha] at h
  exact h

theorem dropWhile_eq_self_of_head? {α : Type} (p : α → Bool) (l : List α)
    (h : ∀ a, l.head? = some a → p a = false) : l.dropWhile p = l := by
  cases l with
  | nil => rfl
  | cons a t2 =>
    rw [List.dropWhile_cons, h a rfl]
    simp

theorem isSpaceCp_repl {c : ℕ} (h : isSpaceCp c = false) :
    isSpaceCp (if c = 32 then 95 else c) = false := by
  by_cases h32 : c = 32
  · subst h32
    simp [isSpaceCp] at h
  · rw [if_neg h32]
    exact h

theorem replaceSpaceCp_fixed (x : List ℕ) :
    replaceSpaceCp (replaceSpaceCp x) = replaceSpaceCp x := by
  refine map_fixed_eq _ _ ?_
  intro e he
  unfold replaceSpaceCp at he
  rcases List.mem_map.1 he with ⟨c, _, hce⟩
  by_cases h32 : c = 32
  · rw [← hce, h32]
    norm_num
  · have hcc : (if c = 32 then 95 else c) = c := if_neg h32
    rw [← hce, hcc, if_neg h32]

/-- The output of strip-then-replace has no leading or trailing whitespace,
so stripping it again is a no-op. -/
theorem stripCp_replace_fixed (w : List ℕ) :
    stripCp (replaceSpaceCp (stripCp w)) = replaceSpaceCp (stripCp w) := by
  set p := isSpaceCp with hp
  set A := w.dropWhile p with hA
  set B := A.reverse.dropWhile p with hB
  have hstrip : stripCp w = B.reverse := by
    unfold stripCp
    rw [← hA, ← hB]
  cases hBe : B with
  | nil =>
    rw [hstrip, hBe]
    rfl
  | cons b B2 =>
    rw [hstrip]
    have hBne : B ≠ [] := by
      rw [hBe]
      exact List.cons_ne_nil b B2
    -- the first element of B is not whitespace
    have hheadB : ∀ a, B.head? = some a → p a = false := fun a ha =>
      head?_dropWhile_false p A.reverse a (by rw [← hB]; exact ha)
    -- the last element of B is the first element of A, not whitespace
    have hlastB : ∀ a, B.getLast? = some a → p a = false := by
      intro a ha
      rcases List.dropWhile_suffix (l := A.reverse) p with ⟨pre, hpre⟩
      have h1 : A.reverse.getLast? = B.getLast? := by
        rw [← hpre, List.getLast?_append_of_ne_nil pre hBne]
      have h2 : A.head? = some a := by
        rw [← List.getLast?_reverse, h1, ha]
      exact head?_dropWhile_false p w a (by rw [← hA]; exact h2)
    set t := replaceSpaceCp B.reverse with ht
    have htrev : t.reverse = replaceSpaceCp B := by
      rw [ht]
      unfold replaceSpaceCp
      rw [List.map_reverse, List.reverse_reverse]
    have hd1 : t.dropWhile p = t := by
      refine dropWhile_eq_self_of_head? p t ?_
      intro a ha
      have : t.head? = (B.getLast?).map (fun c => if c = 32 then 95 else c) := by
        rw [ht]
        unfold replaceSpaceCp
        rw [List.map_reverse]
        rw [List.head?_reverse, List.getLast?_map]
      rw [this] at ha
      rcases hgl : B.getLast? with _ | b2
      · rw [hgl, Option.map_none'] at ha
        exact Option.noConfusion ha
      · rw [hgl] at ha
        simp only [Option.map_some', Option.some.injEq] at ha
        rw [← ha]
        exact isSpaceCp_repl (hlastB b2 hgl)
    have hd2 : t.reverse.dropWhile p = t.reverse := by
      refine dropWhile_eq_self_of_head? p t.reverse ?_
      intro a ha
      rw [htrev] at ha
      unfold replaceSpaceCp at ha
      rw [List.head?_map] at ha
      rcases hh : B.head? with _ | b2
      · rw [hh, Option.map_none'] at ha
        exact Option.noConfusion ha
      · rw [hh] at ha
        simp only [Option.map_some', Option.some.injEq] at ha
        rw [← ha]
        exact isSpaceCp_repl (hheadB b2 hh)
    show stripCp t = t
    unfold stripCp
    rw [hd1, hd2, List.reverse_reverse]

/-- C9 — confirmed.  The column-name normalization (lowercase, strip
whitespace, replace spaces with underscores) is idempotent on every name,
so renormalizing all the column names of a loaded table is a no-op. -/
theorem c9_normalization_idempotent (s : List ℕ) (names : List (List ℕ)) :
    cleanColumnName (cleanColumnName s) = cleanColumnName s ∧
    (names.map cleanColumnName).map cleanColumnName =
      names.map cleanColumnName := by
  have hidem : ∀ u : List ℕ, cleanColumnName (cleanColumnName u) =
      cleanColumnName u := by
    intro u
    have hfix : ∀ e ∈ cleanColumnName u, lowerCp e = e := by
      intro e he
      unfold cleanColumnName replaceSpaceCp at he
      rcases List.mem_map.1 he with ⟨c, hc, hce⟩
      have hcl : c ∈ u.map lowerCp := mem_stripCp hc
      rcases List.mem_map.1 hcl with ⟨d, _, hdc⟩
      by_cases h32 : c = 32
      · rw [← hce, h32]
        norm_num [lowerCp]
      · rw [← hce, if_neg h32, ← hdc, lowerCp_idem]
    show replaceSpaceCp (stripCp ((cleanColumnName u).map lowerCp)) =
      cleanColumnName u
    rw [map_fixed_eq lowerCp _ hfix]
    have h1 : stripCp (cleanColumnName u) = cleanColumnName u :=
      stripCp_replace_fixed (u.map lowerCp)
    rw [h1]
    exact replaceSpaceCp_fixed (stripCp (u.map lowerCp))
  refine ⟨hidem s, ?_⟩
  rw [List.map_map]
  refine List.map_congr_left ?_
  intro a _
  exact hidem a

theorem lookup_map_setCell_ne (r : Row) (c c2 : String) (v : Val)
    (h : c2 ≠ c) :
    (r.map (fun p => if p.1 = c then (c, v) else p)).lookup c2 =
      r.lookup c2 := by
  have hf : (c2 == c) = false := beq_eq_false_iff_ne.2 h
  induction r with
  | nil => rfl
  | cons p r ih =>
    rcases p with ⟨pc, pv⟩
    rw [List.map_cons]
    by_cases hp : pc = c
    · rw [hp, if_pos (show ((c, pv) : String × Val).1 = c from rfl)]
      rw [List.lookup_cons, List.lookup_cons, hf]
      exact ih
    · rw [if_neg (show ¬((pc, pv) : String × Val).1 = c from hp)]
      rw [List.lookup_cons, List.lookup_cons]
      cases hpc : (c2 == pc) with
      | true => rfl
      | false => exact ih

theorem lookup_append_single_ne (r : Row) (c c2 : String) (v : Val)
    (h : c2 ≠ c) : (r ++ [(c, v)]).lookup c2 = r.lookup c2 := by
  have hf : (c2 == c) = false := beq_eq_false_iff_ne.2 h
  induction r with
  | nil =>
    rw [List.nil_append, List.lookup_cons, hf]
  | cons p r ih =>
    rcases p with ⟨pc, pv⟩
    rw [List.cons_append, List.lookup_cons, List.lookup_cons]
    cases hpc : (c2 == pc) with
    | true => rfl
    | false => exact ih

theorem getCell_setCell_ne (r : Row) (c c2 : String) (v : Val)
    (h : c2 ≠ c) : getCell (setCell r c v) c2 = getCell r c2 := by
  unfold getCell setCell
  split
  · rw [lookup_map_setCell_ne r c c2 v h]
  · rw [lookup_append_single_ne r c c2 v h]

theorem setColumn_map (t : Table) (c : String) (h : Row → Val) :
    setColumn t c (t.map h) = t.map (fun r => setCell r c (h r)) := by
  unfold setColumn
  induction t with
  | nil => rfl
  | cons r t ih =>
    rw [List.map_cons, List.zipWith_cons_cons, ih, List.map_cons]

/-- C10 — counterexample.  `plot_age_distribution` mutates its input: line
246 assigns the binned `age_group` column into the caller's DataFrame, so
after the call the one-row table has gained a column. -/
theorem c10_pie_mutation_counterexample :
    plot_age_distribution_effect ageTable [0, 120] ["all"] ≠ ageTable ∧
    plot_age_distribution_effect ageTable [0, 120] ["all"] =
      [[("age", Val.num 20), ("country", Val.str "X"),
        ("age_group", Val.str "all")]] := by
  constructor
  · with_unfolding_all decide
  · with_unfolding_all rfl

/-- C10 — amended claim: the data-quality report and the population pyramid
(which works on a copy) leave the input table unchanged, but the
age-distribution pie chart adds or overwrites an `age_group` column on the
caller's table; the row count and the cells of every other column are
unchanged. -/
theorem c10_readonly_amended (t : Table) (bins : List ℚ)
    (labels : List String) :
    (check_nulls_and_duplicates t).2 = t ∧
    plot_population_pyramid_effect t = t ∧
    (plot_age_distribution_effect t bins labels).length = t.length ∧
    (∀ c, c ≠ "age_group" →
      cellsOf (plot_age_distribution_effect t bins labels) c =
        cellsOf t c) := by
  refine ⟨rfl, rfl, ?_, ?_⟩
  · unfold plot_age_distribution_effect
    rw [setColumn_map, List.length_map]
  · intro c hc
    unfold plot_age_distribution_effect
    rw [setColumn_map]
    unfold cellsOf
    rw [List.map_map]
    refine List.map_congr_left ?_
    intro r _
    exact getCell_setCell_ne r "age_group" c _ hc

/-- Witness for `c10_readonly_amended`: the preserved-column part at a
concrete table and a column other than `age_group`. -/
theorem c10_readonly_amended_witness :
    cellsOf (plot_age_distribution_effect ageTable [0, 120] ["all"])
      "country" = cellsOf ageTable "country" :=
  (c10_readonly_amended ageTable [0, 120] ["all"]).2.2.2 "country"
    (by with_unfolding_all decide)

/-- Witness for `c2_coercion_amended` at a concrete table and columns. -/
theorem c2_coercion_amended_witness :
    (∃ t', convert_columns_to_type coerceTable ["a", "b"] astypeInt =
      Except.ok t') ∨
    (∃ pre c post t' v l1 l2,
      (["a", "b"] : List String) = pre ++ c :: post ∧
      convert_columns_to_type coerceTable ["a", "b"] astypeInt =
        Except.error (t', v) ∧
      convert_columns_to_type coerceTable pre astypeInt = Except.ok t' ∧
      cellsOf t' c = l1 ++ v :: l2 ∧
      (∀ w ∈ l1, (astypeInt w).isSome) ∧ astypeInt v = none) :=
  c2_coercion_amended coerceTable ["a", "b"] astypeInt

/-- Witness for `c4_tie_order_amended` at the tie table. -/
theorem c4_tie_order_amended_witness :
    (get_top_n_groups_by_sum tieTable "g" "v" 5).Pairwise
      (fun a b => b.2 ≤ a.2) ∧
    (∃ dropped,
      List.Perm (get_top_n_groups_by_sum tieTable "g" "v" 5 ++ dropped)
        ((groupKeys tieTable "g").map
          (fun k => (k, seriesSum (cellsOf (groupRows tieTable "g" k) "v"))))) ∧
    get_top_n_groups_by_sum tieTable "g" "v" 5 =
      [(Val.str "B", 1), (Val.str "A", 1)] :=
  c4_tie_order_amended tieTable "g" "v" 5

/-- Witness for `c7_results_sorted_nonincreasing` at a concrete table. -/
theorem c7_results_sorted_nonincreasing_witness :
    (get_top_n_groups_by_sum negNTable "g" "v" 5).Pairwise
      (fun a b => b.2 ≤ a.2) ∧
    (get_top_n_groups_by_mean negNTable "g" ["v"] 5).Pairwise
      (fun a b => OptGe (a.2.headD none) (b.2.headD none)) :=
  c7_results_sorted_nonincreasing negNTable "g" "v" ["v"] 5

/-- Witness for `c9_normalization_idempotent` on the code points of
`" Body Mass "`. -/
theorem c9_normalization_idempotent_witness :
    cleanColumnName (cleanColumnName
      [32, 66, 111, 100, 121, 32, 77, 97, 115, 115, 32]) =
      cleanColumnName [32, 66, 111, 100, 121, 32, 77, 97, 115, 115, 32] ∧
    (([[32, 66, 111, 100, 121, 32, 77, 97, 115, 115, 32]] :
        List (List ℕ)).map cleanColumnName).map cleanColumnName =
      ([[32, 66, 111, 100, 121, 32, 77, 97, 115, 115, 32]] :
        List (List ℕ)).map cleanColumnName :=
  c9_normalization_idempotent
    [32, 66, 111, 100, 121, 32, 77, 97, 115, 115, 32]
    [[32, 66, 111, 100, 121, 32, 77, 97, 115, 115, 32]]

end FitRing
